import Mathlib

/-!
Verification of the lineage-consistency engine of `napari-manual-tracking`.

The definitions below are a shallow embedding of the code in
`src/napari_manual_tracking/_manual_tracker.py` and
`src/napari_manual_tracking/utilities/_plot_widget.py`:

* the lineage table `parent_labels` (one row per label, columns
  `label`/`parent`) is a `List LinRow`;
* the annotation table `label_df` (one row per observed label per frame,
  columns `time_point`/`label`/`parent`; the opaque measurement columns
  `cell`/`area` are never read or written by the operations modelled here
  and are omitted) is a `List AnnRow`, where `parent : Option Int` models
  a pandas integer column that can hold `NaN` after an unmatched left join;
* the 4-D label volume `labels.data` is a `List (List Int)`: a list of
  frames, each frame flattened to its list of voxel values (the operations
  modelled here act pointwise per voxel and slice only along the time axis,
  so the z/y/x structure is irrelevant);
* possibly non-terminating `while` loops are embedded with an explicit
  fuel parameter returning `Option`, `none` meaning the loop has not
  finished within the given fuel.
-/

namespace ManualTracking

/-- Row of the lineage table `self.parent_labels` (columns `label`, `parent`). -/
structure LinRow where
  label : Int
  parent : Int
deriving DecidableEq, Repr

/-- Row of the annotation table `self.label_df` (columns `time_point`,
`label`, `parent`).  `parent = none` models a pandas `NaN` produced by a
left join that found no match. -/
structure AnnRow where
  time_point : Int
  label : Int
  parent : Option Int
deriving DecidableEq, Repr

/-- The mutable session state of `ManualDivisionTracker`: the label volume
(`self.labels.data`, a list of frames of voxel values), the annotation
table `self.label_df` and the lineage table `self.parent_labels`. -/
structure TrackerState where
  volume : List (List Int)
  label_df : List AnnRow
  parent_labels : List LinRow
deriving DecidableEq, Repr

/-! ### Python `int(str)` parsing, for `TableWidget.table_cell_changed` -/

/-- Leading and trailing whitespace removal, as Python `int(str)` performs
before parsing. -/
def stripEnds (cs : List Char) : List Char :=
  ((cs.dropWhile Char.isWhitespace).reverse.dropWhile Char.isWhitespace).reverse

/-- Value of a list of decimal digit characters. -/
def digitsVal (cs : List Char) : Nat :=
  cs.foldl (fun a c => 10 * a + (c.toNat - 48)) 0

/-- Parse a nonempty all-digit character list, else fail. -/
def parseDigits (cs : List Char) : Option Nat :=
  if cs ≠ [] ∧ cs.all Char.isDigit then some (digitsVal cs) else none

/-- Model of Python `int(text)` on the ASCII core of its grammar: optional
surrounding whitespace, optional sign, one or more decimal digits; `none`
models the `ValueError` raised on any other input. -/
def parsePyInt (s : String) : Option Int :=
  match stripEnds s.toList with
  | '-' :: rest => (parseDigits rest).map (fun n => -(n : Int))
  | '+' :: rest => (parseDigits rest).map (fun n => (n : Int))
  | cs => (parseDigits cs).map (fun n => (n : Int))

/-- Update one column of a lineage-table row: column 0 is `label`, column 1
(the only column the widget marks editable) is `parent`. -/
def updCell (row : LinRow) (c : Nat) (v : Int) : LinRow :=
  if c = 0 then { row with label := v } else { row with parent := v }

/-- Write value `v` into cell `(r, c)` of the 2-column lineage-table widget
dataframe (`self.df.iat[row, col] = new_value`).  Row indices coming from
the widget are always in range; out of range we return the table
unchanged. -/
def setLinCell (table : List LinRow) (r c : Nat) (v : Int) : List LinRow :=
  match table.get? r with
  | none => table
  | some row => table.set r (updCell row c v)

/-- Embedding of `TableWidget.table_cell_changed` (lines 91-102): parse the
entered text with `int`; on success write it into the dataframe cell, on
`ValueError` discard the value and leave the dataframe unchanged. -/
def tableCellChanged (table : List LinRow) (r c : Nat) (text : String) : List LinRow :=
  match parsePyInt text with
  | some v => setLinCell table r c v
  | none => table

/-- Embedding of the lineage-table portion of
`ManualDivisionTracker._update_labels` (lines 494-504), run when a label is
painted: label 1 is reserved; a label new to `parent_labels` is appended
with parent 0; a label present with parent -1 has its parent set to 0. -/
def paintIntroduceLabel (lin : List LinRow) (l : Int) : List LinRow :=
  if l = 1 then lin
  else
    match lin.find? (fun r => r.label == l) with
    | none => lin ++ [⟨l, 0⟩]
    | some r =>
        if r.parent = -1 then
          lin.map (fun x => if x.label == l then { x with parent := 0 } else x)
        else lin

/-! ### Parent chains -/

/-- Parent recorded in the lineage table for `l` (first matching row, as
pandas `.values[0]` / `.iloc[0]` would return), if any. -/
def parentOf (table : List LinRow) (l : Int) : Option Int :=
  (table.find? (fun r => r.label == l)).map (fun r => r.parent)

/-- Walk the parent chain upward from label `l` for at most `fuel` lookups;
`true` iff the walk reaches `0` or `-1` within that bound.  A dangling
pointer (a parent value with no row of its own) does not count as
terminating at `0` or `-1`. -/
def chainTerminates (table : List LinRow) : Nat → Int → Bool
  | 0, _ => false
  | n + 1, l =>
      match parentOf table l with
      | none => false
      | some p => if p = 0 ∨ p = -1 then true else chainTerminates table n p

/-! ### The "dirty fix" left join and the reconciliation pass -/

/-- Embedding of the "dirty fix" used before and after every convert/swap
(`_manual_tracker.py` lines 356-359, 390-393, 415-418):
`pd.merge(label_df, parent_labels[['label','parent']], on='label',
how='left')` followed by overwriting `parent` with the joined column.
Each annotation row is replaced by one copy per matching lineage row
(pandas left-join semantics), or by a single copy with `parent = NaN`
(here `none`) when its label is absent from the lineage table. -/
def dirtyFix (lin : List LinRow) : List AnnRow → List AnnRow
  | [] => []
  | r :: rest =>
      (match lin.filter (fun lr => lr.label == r.label) with
       | [] => [{ r with parent := none }]
       | ms => ms.map (fun lr => { r with parent := some lr.parent })) ++ dirtyFix lin rest

/-- Per-row description of the left join when the lineage table has at most
one row per label: the row keeps its `time_point` and `label`, and its
`parent` becomes the parent of the first (hence only) matching lineage row,
or `none` when there is no match.  `dirtyFix` is proved equal to mapping
this function whenever lineage labels are unique. -/
def rowFix (lin : List LinRow) (r : AnnRow) : AnnRow :=
  ⟨r.time_point, r.label, (lin.find? (fun lr => lr.label == r.label)).map (fun lr => lr.parent)⟩

/-- The reconciliation pass named by the spec: overwrite every annotation
row's `parent` from the lineage table (the dirty-fix join above), and prune
lineage rows whose label no longer occurs in the annotation data
(`self.parent_labels[self.parent_labels['label'].isin(self.label_df['label'])]`,
lines 387 and 460). -/
def reconcile (ann : List AnnRow) (lin : List LinRow) : List AnnRow × List LinRow :=
  (dirtyFix lin ann, lin.filter (fun lr => decide (lr.label ∈ ann.map AnnRow.label)))

/-! ### Volume primitives -/

/-- Pointwise relabelling `data[data == src] = tgt` of one value. -/
def relabelVal (src tgt v : Int) : Int :=
  if v = src then tgt else v

/-- Pointwise effect on one voxel of the masked swap
(`mask = data == src; data[data == tgt] = src; data[mask] = tgt`). -/
def swapVal (src tgt v : Int) : Int :=
  if v = src then tgt else if v = tgt then src else v

/-- Apply `f` to the frames with index `≥ t` only, leaving earlier frames
unchanged: the slice `labels.data[time_start:, :, :, :]`. -/
def mapFrom (t : Nat) (f : List Int → List Int) : List (List Int) → List (List Int)
  | [] => []
  | x :: xs =>
      match t with
      | 0 => f x :: mapFrom 0 f xs
      | n + 1 => x :: mapFrom n f xs

/-- Voxel `j` of frame `i`, if present. -/
def getVoxel (vol : List (List Int)) (i j : Nat) : Option Int :=
  match vol.get? i with
  | none => none
  | some frame => frame.get? j

/-! ### Convert and swap -/

/-- Embedding of `ManualDivisionTracker._convert_label` (lines 349-400).
`allFrames` selects the "(all)" button, otherwise the edit applies from
frame `tstart` (the viewer's current time point) onward.  Steps, in source
order: the dirty-fix join; then either the convert-to-zero branch (erase
`src` voxels, drop annotation rows — for the partial edit, keep exactly the
rows with `label != src` and `time_point <= tstart` — and drop the `src`
lineage row) or the relabel branch (relabel voxels and annotation rows,
and if `tgt` was not yet a lineage label, append `(tgt, 0)` and prune
lineage rows whose label no longer occurs in the annotation data); and one
more dirty-fix join at the end. -/
def convertLabel (st : TrackerState) (src tgt : Int) (allFrames : Bool) (tstart : Nat) :
    TrackerState :=
  let df1 := dirtyFix st.parent_labels st.label_df
  if tgt = 0 then
    let vol' :=
      if allFrames then st.volume.map (List.map (relabelVal src tgt))
      else mapFrom tstart (List.map (relabelVal src tgt)) st.volume
    let df2 :=
      if allFrames then df1.filter (fun r => r.label != src)
      else df1.filter (fun r => r.label != src && decide (r.time_point ≤ (tstart : Int)))
    let lin' := st.parent_labels.filter (fun lr => lr.label != src)
    { volume := vol', label_df := dirtyFix lin' df2, parent_labels := lin' }
  else
    let vol' :=
      if allFrames then st.volume.map (List.map (relabelVal src tgt))
      else mapFrom tstart (List.map (relabelVal src tgt)) st.volume
    let df2 :=
      if allFrames then
        df1.map (fun r => if r.label = src then { r with label := tgt } else r)
      else
        df1.map (fun r =>
          if (tstart : Int) ≤ r.time_point ∧ r.label = src then { r with label := tgt } else r)
    let lin' :=
      if tgt ∈ st.parent_labels.map LinRow.label then st.parent_labels
      else (st.parent_labels ++ [LinRow.mk tgt 0]).filter
        (fun lr => decide (lr.label ∈ df2.map AnnRow.label))
    { volume := vol', label_df := dirtyFix lin' df2, parent_labels := lin' }

/-- First recorded parent of `l` (`parent_labels.loc[...,'parent'].values[0]`).
The code only evaluates this after checking `l` is a lineage label, so the
default `0` for a missing row is never reached in the modelled paths. -/
def firstParent (lin : List LinRow) (l : Int) : Int :=
  ((lin.find? (fun r => r.label == l)).map (fun r => r.parent)).getD 0

/-- Row-level effect of the swap on the annotation table: the boolean masks
are taken before any assignment, rows labelled `tgt` get label `src` and
parent `srcP`, rows labelled `src` get label `tgt` and parent `tgtP`. -/
def rowSwap (src tgt srcP tgtP : Int) (r : AnnRow) : AnnRow :=
  if r.label = tgt then { r with label := src, parent := some srcP }
  else if r.label = src then { r with label := tgt, parent := some tgtP }
  else r

/-- Embedding of `ManualDivisionTracker._swap_label` (lines 402-469).
If either label is absent from the lineage table the operation aborts
(returns the state unchanged, after a user-visible warning).  Otherwise:
the dirty-fix join; the masked true swap on the volume; the mask-based swap
of `label` and `parent` on the annotation rows (time-restricted to
`time_point >= tstart` when not `allFrames`); and pruning of lineage rows
whose label no longer occurs in the annotation data. -/
def swapLabel (st : TrackerState) (src tgt : Int) (allFrames : Bool) (tstart : Nat) :
    TrackerState :=
  if src ∈ st.parent_labels.map LinRow.label ∧ tgt ∈ st.parent_labels.map LinRow.label then
    let df1 := dirtyFix st.parent_labels st.label_df
    let srcP := firstParent st.parent_labels src
    let tgtP := firstParent st.parent_labels tgt
    let vol' :=
      if allFrames then st.volume.map (List.map (swapVal src tgt))
      else mapFrom tstart (List.map (swapVal src tgt)) st.volume
    let df2 :=
      if allFrames then df1.map (rowSwap src tgt srcP tgtP)
      else df1.map (fun r =>
        if (tstart : Int) ≤ r.time_point then rowSwap src tgt srcP tgtP r else r)
    let lin' := st.parent_labels.filter (fun lr => decide (lr.label ∈ df2.map AnnRow.label))
    { volume := vol', label_df := df2, parent_labels := lin' }
  else st

/-! ### Tree layout -/

/-- Children of `l` in lineage-table iteration order:
`parent_labels.loc[parent_labels['parent'] == l, 'label']`. -/
def childrenOf (table : List LinRow) (l : Int) : List Int :=
  (table.filter (fun r => r.parent == l)).map (fun r => r.label)

/-- Python `list.insert(i, x)`: insert `x` so that it ends up at position
`i` (appending when `i` is beyond the end). -/
def insertAt : Nat → Int → List Int → List Int
  | 0, x, ys => x :: ys
  | _ + 1, x, [] => [x]
  | n + 1, x, y :: ys => y :: insertAt n x ys

/-- Python `list.index(x)` (first index of `x`; the code only calls it on
elements already present, so the out-of-range value `length` returned on a
missing element is never reached in the modelled paths). -/
def indexOfInt (x : Int) : List Int → Nat
  | [] => 0
  | y :: ys => if y = x then 0 else indexOfInt x ys + 1

/-- The inner `for i, c in enumerate(children)` loop of
`_determine_label_plot_order`: each child `c` is inserted at position
`y_axis_order.index(l) + i`, the index being recomputed after every
insertion. -/
def insertChildren : List Int → Int → Nat → List Int → List Int
  | order, _, _, [] => order
  | order, l, i, c :: cs => insertChildren (insertAt (indexOfInt l order + i) c order) l (i + 1) cs

/-- One iteration of the `while` loop of `_determine_label_plot_order`:
expand every label of the frontier in order, inserting its children into
the order and collecting them as the next frontier. -/
def expandRound (table : List LinRow) : List Int → List Int → List Int × List Int
  | order, [] => (order, [])
  | order, l :: ls =>
      let cs := childrenOf table l
      let r := expandRound table (insertChildren order l 0 cs) ls
      (r.1, cs ++ r.2)

/-- The `while len(starting_points) > 0` loop with explicit fuel: `none`
means the loop has not finished within `fuel` iterations. -/
def plotOrderFuel (table : List LinRow) : Nat → List Int → List Int → Option (List Int)
  | 0, _, _ => none
  | _ + 1, order, [] => some order
  | fuel + 1, order, l :: ls =>
      let p := expandRound table order (l :: ls)
      plotOrderFuel table fuel p.1 p.2

/-- Embedding of `_determine_label_plot_order` (identical in
`ManualDivisionTracker`, lines 683-698, and `PlotWidget`, lines 195-210),
with fuel for the possibly non-terminating `while` loop. -/
def determineLabelPlotOrder (table : List LinRow) (fuel : Nat) (starting : List Int) :
    Option (List Int) :=
  plotOrderFuel table fuel starting starting

/-- Label subset selected by `_update_cmap` in the `"Tracked"` colormap
mode (lines 644-645): the labels whose recorded parent is not `-1`. -/
def cmapTrackedSelection (table : List LinRow) : List Int :=
  (table.filter (fun r => r.parent != -1)).map (fun r => r.label)

/-! ### Reconciled states -/

/-- A state in which the two tables agree: lineage labels are unique, every
annotation row carries exactly the parent recorded for its label in the
lineage table, and every lineage label still occurs in the annotation
data.  This is the normal state between edits, which the spec's
ReconciliationEngine is meant to re-establish after every operation. -/
def Reconciled (st : TrackerState) : Prop :=
  (st.parent_labels.map LinRow.label).Nodup ∧
    (∀ r ∈ st.label_df, ∃ lr ∈ st.parent_labels, lr.label = r.label ∧ r.parent = some lr.parent) ∧
    (∀ lr ∈ st.parent_labels, ∃ r ∈ st.label_df, r.label = lr.label)

instance (st : TrackerState) : Decidable (Reconciled st) := by
  unfold Reconciled
  infer_instance

/-! ## Helper lemmas on the dirty-fix join -/

theorem filter_label_nodup (lin : List LinRow) (hnd : (lin.map LinRow.label).Nodup) (x : Int) :
    lin.filter (fun lr => lr.label == x)
      = match lin.find? (fun lr => lr.label == x) with
        | none => []
        | some lr => [lr] := by
  induction lin with
  | nil => rfl
  | cons t ts ih =>
    have hnd' : (ts.map LinRow.label).Nodup := (List.nodup_cons.mp hnd).2
    by_cases h : t.label = x
    · have hb : (t.label == x) = true := beq_iff_eq.mpr h
      have hrest : ts.filter (fun lr => lr.label == x) = [] := by
        rw [List.filter_eq_nil_iff]
        intro a ha hb2
        have hax : a.label = x := by simpa using hb2
        refine (List.nodup_cons.mp hnd).1 ?_
        rw [h, ← hax]
        exact List.mem_map.mpr ⟨a, ha, rfl⟩
      simp [List.filter_cons, List.find?, hb, hrest]
    · have hb : (t.label == x) = false := beq_eq_false_iff_ne.mpr h
      simp [List.filter_cons, List.find?, hb, ih hnd']

theorem dirtyFix_eq_map (lin : List LinRow) (hnd : (lin.map LinRow.label).Nodup) :
    ∀ ann, dirtyFix lin ann = ann.map (rowFix lin) := by
  intro ann
  induction ann with
  | nil => rfl
  | cons r rest ih =>
    rw [dirtyFix, ih, List.map_cons]
    rw [filter_label_nodup lin hnd r.label, rowFix]
    cases h : lin.find? (fun lr => lr.label == r.label) <;> simp

theorem find?_filter_of_mem (x : Int) (p : LinRow → Bool)
    (hp : ∀ lr : LinRow, lr.label = x → p lr = true) :
    ∀ lin : List LinRow,
      (lin.filter p).find? (fun lr => lr.label == x) = lin.find? (fun lr => lr.label == x) := by
  intro lin
  induction lin with
  | nil => rfl
  | cons t ts ih =>
    by_cases h : t.label = x
    · have hb : (t.label == x) = true := beq_iff_eq.mpr h
      simp [List.filter_cons, hp t h, List.find?, hb]
    · have hb : (t.label == x) = false := beq_eq_false_iff_ne.mpr h
      cases hpt : p t with
      | true => simp [List.filter_cons, hpt, List.find?, hb, ih]
      | false => simp [List.filter_cons, hpt, List.find?, hb, ih]

theorem rowFix_pruned (lin : List LinRow) (al : List Int) (r : AnnRow) (hmem : r.label ∈ al) :
    rowFix (lin.filter (fun lr => decide (lr.label ∈ al))) (rowFix lin r) = rowFix lin r := by
  have hfind : (lin.filter (fun lr => decide (lr.label ∈ al))).find?
        (fun lr => lr.label == r.label) = lin.find? (fun lr => lr.label == r.label) :=
    find?_filter_of_mem r.label _ (fun lr h => decide_eq_true (h ▸ hmem)) lin
  simp [rowFix, hfind]

theorem mem_dirtyFix {lin : List LinRow} {r' : AnnRow} :
    ∀ {ann : List AnnRow}, r' ∈ dirtyFix lin ann →
      ∃ r ∈ ann, r'.label = r.label ∧ r'.time_point = r.time_point := by
  intro ann
  induction ann with
  | nil => intro h; cases h
  | cons r rest ih =>
    intro h
    rw [dirtyFix] at h
    rcases List.mem_append.mp h with h | h
    · refine ⟨r, List.mem_cons_self r rest, ?_⟩
      cases hf : lin.filter (fun lr => lr.label == r.label) with
      | nil =>
        rw [hf] at h
        simp only [List.mem_singleton] at h
        rw [h]
        exact ⟨rfl, rfl⟩
      | cons a as =>
        rw [hf] at h
        obtain ⟨lr, _, hlr⟩ := List.mem_map.mp h
        rw [← hlr]
        exact ⟨rfl, rfl⟩
    · obtain ⟨r0, h0, hl⟩ := ih h
      exact ⟨r0, List.mem_cons_of_mem _ h0, hl⟩

theorem filter_map_comm (f : AnnRow → AnnRow) (m : AnnRow → Bool) (hm : ∀ r, m (f r) = m r) :
    ∀ ann : List AnnRow, (ann.map f).filter m = (ann.filter m).map f := by
  intro ann
  induction ann with
  | nil => rfl
  | cons r rest ih =>
    rw [List.map_cons, List.filter_cons, List.filter_cons, hm r]
    cases m r <;> simp [ih]

/-! ## Helper lemmas on the volume primitives -/

theorem mapFrom_get? (f : List Int → List Int) :
    ∀ (l : List (List Int)) (t i : Nat),
      (mapFrom t f l).get? i = if i < t then l.get? i else (l.get? i).map f := by
  intro l
  induction l with
  | nil => intro t i; cases t <;> simp [mapFrom]
  | cons x xs ih =>
    intro t i
    cases t with
    | zero =>
      cases i with
      | zero => simp [mapFrom]
      | succ m => simpa [mapFrom] using ih 0 m
    | succ n =>
      cases i with
      | zero => simp [mapFrom]
      | succ m => simpa [mapFrom, Nat.succ_lt_succ_iff] using ih n m

theorem getVoxel_map (f : Int → Int) (vol : List (List Int)) (i j : Nat) :
    getVoxel (vol.map (List.map f)) i j = (getVoxel vol i j).map f := by
  rw [getVoxel, getVoxel, List.get?_map]
  cases vol.get? i with
  | none => rfl
  | some frame => simp [List.get?_map]

theorem getVoxel_mapFrom (f : Int → Int) (vol : List (List Int)) (t i j : Nat) :
    getVoxel (mapFrom t (List.map f) vol) i j
      = if i < t then getVoxel vol i j else (getVoxel vol i j).map f := by
  rw [getVoxel, getVoxel, mapFrom_get?]
  by_cases h : i < t
  · rw [if_pos h, if_pos h]
  · rw [if_neg h, if_neg h]
    cases vol.get? i with
    | none => rfl
    | some frame => simp [List.get?_map]

/-! ## Helper lemmas on the tree-layout primitives -/

theorem mem_insertAt (a x : Int) :
    ∀ (n : Nat) (ys : List Int), a ∈ insertAt n x ys ↔ a = x ∨ a ∈ ys := by
  intro n ys
  induction ys generalizing n with
  | nil => cases n <;> simp [insertAt]
  | cons y ys ih =>
    cases n with
    | zero => simp [insertAt]
    | succ m => simp [insertAt, ih]; tauto

theorem mem_insertChildren (a : Int) :
    ∀ (cs order : List Int) (l : Int) (i : Nat),
      a ∈ insertChildren order l i cs ↔ a ∈ order ∨ a ∈ cs := by
  intro cs
  induction cs with
  | nil => simp [insertChildren]
  | cons c cs ih =>
    intro order l i
    simp [insertChildren, ih, mem_insertAt]
    tauto

theorem childrenOf_mem {table : List LinRow} {l c : Int} (h : c ∈ childrenOf table l) :
    ∃ r ∈ table, r.label = c ∧ r.parent = l := by
  simp only [childrenOf, List.mem_map, List.mem_filter] at h
  obtain ⟨r, ⟨hr, hp⟩, hl⟩ := h
  exact ⟨r, hr, hl, by simpa using hp⟩

theorem mem_expandRound_fst (table : List LinRow) (a : Int) :
    ∀ (fr order : List Int),
      a ∈ (expandRound table order fr).1 ↔ a ∈ order ∨ ∃ l ∈ fr, a ∈ childrenOf table l := by
  intro fr
  induction fr with
  | nil => simp [expandRound]
  | cons l ls ih =>
    intro order
    simp [expandRound, ih, mem_insertChildren]
    tauto

theorem mem_expandRound_snd (table : List LinRow) (a : Int) :
    ∀ (fr order : List Int),
      a ∈ (expandRound table order fr).2 ↔ ∃ l ∈ fr, a ∈ childrenOf table l := by
  intro fr
  induction fr with
  | nil => simp [expandRound]
  | cons l ls ih =>
    intro order
    simp [expandRound, ih]

/-! ## C3: sibling placement of the tree-layout algorithm -/

/-- C3 (counterexample): on the lineage table `{(5,0),(6,5),(7,5)}` with
starting labels `[5]`, `_determine_label_plot_order` returns `[6,5,7]` —
exactly the order the claim says can never occur — and neither `[5,6,7]`
nor `[5,7,6]`. -/
theorem C3_counterexample :
    determineLabelPlotOrder [⟨5, 0⟩, ⟨6, 5⟩, ⟨7, 5⟩] 10 [5] = some [6, 5, 7] ∧
      (some [6, 5, 7] : Option (List Int)) ≠ some [5, 6, 7] ∧
      (some [6, 5, 7] : Option (List Int)) ≠ some [5, 7, 6] := by decide

/-- C3 (amended): for a parent `p` with children `c1, c2` (all labels
nonzero and distinct from `p`), the algorithm inserts child `i` at position
`index(p) + i`, so the first child lands immediately before the parent and
the second immediately after: the order is `[c1, p, c2]`, not
`[p, c1, c2]`. -/
theorem C3_first_child_lands_before_parent (p c1 c2 : Int)
    (hp : p ≠ 0) (h1 : c1 ≠ p) (h2 : c2 ≠ p) (h10 : c1 ≠ 0) (h20 : c2 ≠ 0) :
    determineLabelPlotOrder [⟨p, 0⟩, ⟨c1, p⟩, ⟨c2, p⟩] 3 [p] = some [c1, p, c2] := by
  have e0p : ((0 : Int) == p) = false := beq_eq_false_iff_ne.mpr (Ne.symm hp)
  have epp : ((p : Int) == p) = true := beq_self_eq_true p
  have epc1 : ((p : Int) == c1) = false := beq_eq_false_iff_ne.mpr (Ne.symm h1)
  have epc2 : ((p : Int) == c2) = false := beq_eq_false_iff_ne.mpr (Ne.symm h2)
  have e0c1 : ((0 : Int) == c1) = false := beq_eq_false_iff_ne.mpr (Ne.symm h10)
  have e0c2 : ((0 : Int) == c2) = false := beq_eq_false_iff_ne.mpr (Ne.symm h20)
  simp [determineLabelPlotOrder, plotOrderFuel, expandRound, childrenOf, insertChildren,
    insertAt, indexOfInt, List.filter_cons, e0p, epp, epc1, epc2, e0c1, e0c2, h1, h2]

/-- C3 (witness): the amended theorem applied at the concrete scenario
`p = 5`, `c1 = 6`, `c2 = 7`. -/
theorem C3_witness :
    determineLabelPlotOrder [⟨5, 0⟩, ⟨6, 5⟩, ⟨7, 5⟩] 3 [5] = some [6, 5, 7] :=
  C3_first_child_lands_before_parent 5 6 7 (by decide) (by decide) (by decide)
    (by decide) (by decide)

/-! ## C9: table-cell edits -/

/-- C9: a cell edit whose text does not parse as an integer leaves the
dataframe unchanged (and, the embedding being a total function, no error
propagates); a cell edit whose text parses as `v` writes `v` into exactly
the cell `(r, c)` and leaves every other row unchanged. -/
theorem C9_cell_edit_parse (table : List LinRow) (r c : Nat) (s : String)
    (hr : r < table.length) :
    (parsePyInt s = none → tableCellChanged table r c s = table) ∧
    ∀ v, parsePyInt s = some v →
      (tableCellChanged table r c s).length = table.length ∧
      (tableCellChanged table r c s).get? r = some (updCell (table.get ⟨r, hr⟩) c v) ∧
      ∀ i, i ≠ r → (tableCellChanged table r c s).get? i = table.get? i := by
  constructor
  · intro h
    simp [tableCellChanged, h]
  · intro v hv
    have hget : table.get? r = some (table.get ⟨r, hr⟩) := List.get?_eq_get hr
    simp only [tableCellChanged, hv, setLinCell, hget]
    refine ⟨List.length_set .., List.get?_set_eq_of_lt _ hr, ?_⟩
    intro i hi
    exact List.get?_set_ne _ _ (fun h => hi h.symm)

/-- C9 (witness): the non-numeric edit `"abc"` on a one-row table is
discarded. -/
theorem C9_witness :
    tableCellChanged [LinRow.mk 5 0] 0 1 "abc" = [LinRow.mk 5 0] :=
  (C9_cell_edit_parse [LinRow.mk 5 0] 0 1 "abc" (by decide)).1 (by decide)

/-! ## C1: the forest invariant is not protected against table edits -/

/-- C1 (counterexample): starting from the empty lineage table, painting
label 5 produces the reachable table `[(5, 0)]`; manually editing its
parent cell to `"5"` is accepted by `table_cell_changed` and yields
`[(5, 5)]`, a label that is its own parent, whose parent chain does not
terminate at `0` or `-1` within `1` step (the number of distinct labels). -/
theorem C1_counterexample :
    tableCellChanged (paintIntroduceLabel [] 5) 0 1 "5" = [⟨5, 5⟩] ∧
      chainTerminates [⟨5, 5⟩] 1 5 = false := by decide

/-- Under unique labels, replacing row `r` by a row with the same label
makes that row the one `find?` returns for that label. -/
theorem find?_set_same_label :
    ∀ (table : List LinRow) (r : Nat) (hr : r < table.length) (row' : LinRow),
      (table.map LinRow.label).Nodup → row'.label = (table.get ⟨r, hr⟩).label →
      (table.set r row').find? (fun x => x.label == row'.label) = some row' := by
  intro table
  induction table with
  | nil => intro r hr; simp at hr
  | cons t ts ih =>
    intro r hr row' hnd hlab
    cases r with
    | zero =>
      simp [List.set, List.find?, beq_self_eq_true]
    | succ m =>
      have hm : m < ts.length := Nat.lt_of_succ_lt_succ hr
      have hndt : (ts.map LinRow.label).Nodup := (List.nodup_cons.mp hnd).2
      have hmem : row'.label ∈ ts.map LinRow.label := by
        rw [hlab]
        exact List.mem_map.mpr ⟨ts.get ⟨m, hm⟩, ts.get_mem m hm, rfl⟩
      have hne : (t.label == row'.label) = false := by
        refine beq_eq_false_iff_ne.mpr (fun h => ?_)
        exact (List.nodup_cons.mp hnd).1 (h ▸ hmem)
      simpa [List.set, List.find?, hne] using ih m hm row' hndt hlab

/-- C1 (amended): `table_cell_changed` performs no validation whatsoever.
If the text typed into the parent cell of row `r` parses to that row's own
label (nonzero and not `-1`, as all real labels are), the write is
accepted, making the label its own parent: under unique labels, the parent
chain from it then fails to terminate at `0` or `-1` for every step bound,
so the forest invariant does not hold in all reachable states. -/
theorem C1_self_parent_edit_accepted (table : List LinRow) (r : Nat) (s : String)
    (hnd : (table.map LinRow.label).Nodup) (hr : r < table.length)
    (hs : parsePyInt s = some (table.get ⟨r, hr⟩).label)
    (h0 : (table.get ⟨r, hr⟩).label ≠ 0) (h1 : (table.get ⟨r, hr⟩).label ≠ -1) :
    ∀ fuel, chainTerminates (tableCellChanged table r 1 s) fuel (table.get ⟨r, hr⟩).label
      = false := by
  have hget : table[r]? = some (table.get ⟨r, hr⟩) := by
    rw [List.getElem?_eq_getElem hr, List.get_eq_getElem]
  have hres : tableCellChanged table r 1 s
      = table.set r (LinRow.mk (table.get ⟨r, hr⟩).label (table.get ⟨r, hr⟩).label) := by
    simp [tableCellChanged, hs, setLinCell, hget, updCell]
  have hpar : parentOf (tableCellChanged table r 1 s) (table.get ⟨r, hr⟩).label
      = some (table.get ⟨r, hr⟩).label := by
    rw [hres, parentOf,
      find?_set_same_label table r hr (LinRow.mk (table.get ⟨r, hr⟩).label
        (table.get ⟨r, hr⟩).label) hnd rfl]
    rfl
  intro fuel
  induction fuel with
  | zero => rfl
  | succ n ih =>
    rw [chainTerminates, hpar]
    show (if (table.get ⟨r, hr⟩).label = 0 ∨ (table.get ⟨r, hr⟩).label = -1 then true
      else chainTerminates (tableCellChanged table r 1 s) n (table.get ⟨r, hr⟩).label) = false
    rw [if_neg]
    · exact ih
    · rintro (h | h)
      · exact h0 h
      · exact h1 h

/-- C1 (witness): the amended theorem applied to the reachable one-row
table `[(5, 0)]` with the manual edit `"5"`. -/
theorem C1_witness :
    chainTerminates (tableCellChanged [⟨5, 0⟩] 0 1 "5") 1 5 = false :=
  C1_self_parent_edit_accepted [⟨5, 0⟩] 0 "5" (by decide) (by decide) (by decide)
    (by decide) (by decide) 1

/-! ## C4: only swap validates its label arguments -/

/-- C4 (counterexample): converting label 5 to label 8 while 8 is absent
from the lineage table is not aborted: the volume is relabelled, the
annotation row is renamed, and the lineage table gains `(8, 0)` and loses
`(5, 0)`. -/
theorem C4_counterexample :
    convertLabel ⟨[[5]], [⟨0, 5, some 0⟩], [⟨5, 0⟩]⟩ 5 8 true 0
        = ⟨[[8]], [⟨0, 8, some 0⟩], [⟨8, 0⟩]⟩ ∧
      (⟨[[8]], [⟨0, 8, some 0⟩], [⟨8, 0⟩]⟩ : TrackerState)
        ≠ ⟨[[5]], [⟨0, 5, some 0⟩], [⟨5, 0⟩]⟩ ∧
      (8 : Int) ∉ ([⟨5, 0⟩] : List LinRow).map LinRow.label := by decide

/-- C4 (amended): only `_swap_label` guards against labels absent from the
lineage table: whenever the source or the target label is missing, the
swap returns with the volume, annotation table and lineage table all
unchanged.  `_convert_label` has no such guard (see the counterexample). -/
theorem C4_swap_aborts_unchanged (st : TrackerState) (src tgt : Int)
    (allFrames : Bool) (tstart : Nat)
    (h : ¬(src ∈ st.parent_labels.map LinRow.label ∧
           tgt ∈ st.parent_labels.map LinRow.label)) :
    swapLabel st src tgt allFrames tstart = st := by
  unfold swapLabel
  rw [if_neg h]

/-- C4 (witness): swapping 5 with the absent label 9 leaves the state
unchanged. -/
theorem C4_witness :
    swapLabel ⟨[[5]], [⟨0, 5, some 0⟩], [⟨5, 0⟩]⟩ 5 9 true 0
      = ⟨[[5]], [⟨0, 5, some 0⟩], [⟨5, 0⟩]⟩ :=
  C4_swap_aborts_unchanged _ 5 9 true 0 (by decide)

/-! ## C2: idempotence of the reconciliation pass -/

/-- C2: when every label has at most one row in the lineage table, running
the reconciliation pass (left-join overwrite of the annotation `parent`
column plus pruning of lineage labels absent from the annotation data)
twice yields exactly the tables produced by running it once. -/
theorem C2_reconcile_idempotent (ann : List AnnRow) (lin : List LinRow)
    (hnd : (lin.map LinRow.label).Nodup) :
    reconcile (reconcile ann lin).1 (reconcile ann lin).2 = reconcile ann lin := by
  have hnd1 : ((lin.filter (fun lr => decide (lr.label ∈ ann.map AnnRow.label))).map
      LinRow.label).Nodup :=
    hnd.sublist ((List.filter_sublist lin).map LinRow.label)
  have h1 : (reconcile ann lin).1 = ann.map (rowFix lin) := dirtyFix_eq_map lin hnd ann
  have hlab : (ann.map (rowFix lin)).map AnnRow.label = ann.map AnnRow.label := by
    rw [List.map_map]
    exact List.map_congr_left (fun r _ => rfl)
  have hfst : dirtyFix (lin.filter (fun lr => decide (lr.label ∈ ann.map AnnRow.label)))
      (ann.map (rowFix lin)) = ann.map (rowFix lin) := by
    rw [dirtyFix_eq_map _ hnd1, List.map_map]
    exact List.map_congr_left
      (fun r hr => rowFix_pruned lin (ann.map AnnRow.label) r (List.mem_map_of_mem _ hr))
  have hsnd : (lin.filter (fun lr => decide (lr.label ∈ ann.map AnnRow.label))).filter
        (fun lr => decide (lr.label ∈ (ann.map (rowFix lin)).map AnnRow.label))
      = lin.filter (fun lr => decide (lr.label ∈ ann.map AnnRow.label)) := by
    rw [hlab]
    exact List.filter_eq_self.mpr (fun lr h => (List.mem_filter.mp h).2)
  calc reconcile (reconcile ann lin).1 (reconcile ann lin).2
      = reconcile (ann.map (rowFix lin))
          (lin.filter (fun lr => decide (lr.label ∈ ann.map AnnRow.label))) := by rw [h1]; rfl
    _ = (ann.map (rowFix lin),
          lin.filter (fun lr => decide (lr.label ∈ ann.map AnnRow.label))) := by
        rw [reconcile, hfst, hsnd]
    _ = reconcile ann lin := by rw [reconcile, ← h1]; rfl

/-- C2 (witness): idempotence at a concrete pair of tables (one annotation
row, a lineage table with an extra label). -/
theorem C2_witness :
    reconcile (reconcile [⟨0, 5, some 3⟩] [⟨5, 0⟩, ⟨7, 2⟩]).1
        (reconcile [⟨0, 5, some 3⟩] [⟨5, 0⟩, ⟨7, 2⟩]).2
      = reconcile [⟨0, 5, some 3⟩] [⟨5, 0⟩, ⟨7, 2⟩] :=
  C2_reconcile_idempotent _ _ (by decide)

/-! ## C6: convert-to-zero removes the label everywhere -/

/-- C6: converting `src` to `0` over all frames leaves no annotation row
and no lineage row labelled `src`, and every voxel that held `src` holds
`0` afterwards. -/
theorem C6_convert_to_zero_removes_label (st : TrackerState) (src : Int) (tstart : Nat) :
    ((convertLabel st src 0 true tstart).label_df.all (fun r => r.label != src)) = true ∧
    ((convertLabel st src 0 true tstart).parent_labels.all (fun lr => lr.label != src)) = true ∧
    ∀ i j, getVoxel st.volume i j = some src →
      getVoxel (convertLabel st src 0 true tstart).volume i j = some 0 := by
  have hconv : convertLabel st src 0 true tstart
      = { volume := st.volume.map (List.map (relabelVal src 0)),
          label_df := dirtyFix (st.parent_labels.filter (fun lr => lr.label != src))
            ((dirtyFix st.parent_labels st.label_df).filter (fun r => r.label != src)),
          parent_labels := st.parent_labels.filter (fun lr => lr.label != src) } := by
    rw [convertLabel]
    simp
  rw [hconv]
  refine ⟨?_, ?_, ?_⟩
  · rw [List.all_eq_true]
    intro r' hr'
    obtain ⟨r, hr, hlab, _⟩ := mem_dirtyFix hr'
    rw [hlab]
    exact (List.mem_filter.mp hr).2
  · rw [List.all_eq_true]
    intro lr hlr
    exact (List.mem_filter.mp hlr).2
  · intro i j h
    rw [getVoxel_map, h]
    simp [relabelVal]

/-- C6 (witness): at a concrete one-voxel state, converting label 5 to 0
zeroes the voxel that held 5. -/
theorem C6_witness :
    getVoxel (convertLabel ⟨[[5]], [⟨0, 5, some 0⟩], [⟨5, 0⟩]⟩ 5 0 true 0).volume 0 0
      = some 0 :=
  (C6_convert_to_zero_removes_label ⟨[[5]], [⟨0, 5, some 0⟩], [⟨5, 0⟩]⟩ 5 0).2.2 0 0 (by decide)

/-! ## C10: the row mask of the partial convert-to-zero -/

/-- C10: converting `src` to `0` from frame `tstart` onward keeps exactly
the annotation rows (identified by their `(time_point, label)` cells,
lineage labels being unique) whose label differs from `src` AND whose
`time_point` is `≤ tstart` — so rows of `src` before `tstart` and rows of
other labels after `tstart` are removed too — while frames before `tstart`
and voxels not holding `src` are untouched. -/
theorem C10_partial_convert_mask (st : TrackerState) (src : Int) (tstart : Nat)
    (hnd : (st.parent_labels.map LinRow.label).Nodup) :
    (convertLabel st src 0 false tstart).label_df.map (fun r => (r.time_point, r.label))
        = (st.label_df.filter
            (fun r => r.label != src && decide (r.time_point ≤ (tstart : Int)))).map
            (fun r => (r.time_point, r.label)) ∧
    (∀ i, i < tstart → (convertLabel st src 0 false tstart).volume.get? i = st.volume.get? i) ∧
    ∀ i j v, getVoxel st.volume i j = some v → v ≠ src →
      getVoxel (convertLabel st src 0 false tstart).volume i j = some v := by
  have hnd1 : ((st.parent_labels.filter (fun lr => lr.label != src)).map LinRow.label).Nodup :=
    hnd.sublist ((List.filter_sublist st.parent_labels).map LinRow.label)
  have hconv : convertLabel st src 0 false tstart
      = { volume := mapFrom tstart (List.map (relabelVal src 0)) st.volume,
          label_df := dirtyFix (st.parent_labels.filter (fun lr => lr.label != src))
            ((dirtyFix st.parent_labels st.label_df).filter
              (fun r => r.label != src && decide (r.time_point ≤ (tstart : Int)))),
          parent_labels := st.parent_labels.filter (fun lr => lr.label != src) } := by
    rw [convertLabel]
    simp
  rw [hconv]
  refine ⟨?_, ?_, ?_⟩
  · rw [dirtyFix_eq_map _ hnd,
      filter_map_comm (rowFix st.parent_labels)
        (fun r => r.label != src && decide (r.time_point ≤ (tstart : Int)))
        (fun r => rfl) st.label_df,
      dirtyFix_eq_map _ hnd1, List.map_map, List.map_map]
    rfl
  · intro i hi
    rw [mapFrom_get?, if_pos hi]
  · intro i j v h hv
    rw [getVoxel_mapFrom]
    by_cases hi : i < tstart
    · rw [if_pos hi]
      exact h
    · rw [if_neg hi, h]
      simp [relabelVal, hv]

/-- C10 (witness): at a three-frame state with labels 5 and 9, the partial
convert-to-zero of 5 from frame 1 empties the annotation table: the
remaining candidates are killed either by the label test or by the
`time_point <= 1` test. -/
theorem C10_witness :
    (convertLabel ⟨[[5], [5], [9]], [⟨0, 5, some 0⟩, ⟨1, 5, some 0⟩, ⟨2, 9, some 0⟩],
        [⟨5, 0⟩, ⟨9, 0⟩]⟩ 5 0 false 1).label_df.map (fun r => (r.time_point, r.label))
      = (([⟨0, 5, some 0⟩, ⟨1, 5, some 0⟩, ⟨2, 9, some 0⟩] : List AnnRow).filter
          (fun r => r.label != 5 && decide (r.time_point ≤ (1 : Int)))).map
          (fun r => (r.time_point, r.label)) :=
  (C10_partial_convert_mask ⟨[[5], [5], [9]],
    [⟨0, 5, some 0⟩, ⟨1, 5, some 0⟩, ⟨2, 9, some 0⟩], [⟨5, 0⟩, ⟨9, 0⟩]⟩ 5 1 (by decide)).1

/-! ## C7: the "Tracked" colormap selection -/

theorem plotOrder_mem_sound (table : List LinRow) (h0 : ∀ r ∈ table, r.label ≠ -1) :
    ∀ (fuel : Nat) (order fr out : List Int),
      (∀ l ∈ order, ∃ r ∈ table, r.label = l ∧ r.parent ≠ -1) →
      (∀ l ∈ fr, l ≠ -1) →
      plotOrderFuel table fuel order fr = some out →
      ∀ l ∈ out, ∃ r ∈ table, r.label = l ∧ r.parent ≠ -1 := by
  intro fuel
  induction fuel with
  | zero =>
    intro order fr out _ _ h
    cases h
  | succ n ih =>
    intro order fr out hord hfr hrun
    cases fr with
    | nil =>
      simp only [plotOrderFuel, Option.some.injEq] at hrun
      subst hrun
      exact hord
    | cons l ls =>
      simp only [plotOrderFuel] at hrun
      refine ih _ _ _ ?_ ?_ hrun
      · intro a ha
        rcases (mem_expandRound_fst table a (l :: ls) order).mp ha with h | ⟨x, hx, hc⟩
        · exact hord a h
        · obtain ⟨r, hr, hlab, hpar⟩ := childrenOf_mem hc
          exact ⟨r, hr, hlab, by rw [hpar]; exact hfr x hx⟩
      · intro a ha
        rcases (mem_expandRound_snd table a (l :: ls) order).mp ha with ⟨x, hx, hc⟩
        obtain ⟨r, hr, hlab, _⟩ := childrenOf_mem hc
        exact hlab ▸ h0 r hr

/-- C7 (counterexample): the table `{(5,-1),(6,5)}` satisfies the forest
invariant (every parent chain reaches `0` or `-1` within 2 = number of
labels steps), its set of `parent == 0` roots is empty, so the
roots-plus-descendants set of the claim is empty — yet the `"Tracked"`
colormap selection of `_update_cmap` is `[6]`, since it selects every
label with `parent != -1`. -/
theorem C7_counterexample :
    (∀ r ∈ ([⟨5, -1⟩, ⟨6, 5⟩] : List LinRow),
        chainTerminates [⟨5, -1⟩, ⟨6, 5⟩] 2 r.label = true) ∧
      cmapTrackedSelection [⟨5, -1⟩, ⟨6, 5⟩] = [6] ∧
      childrenOf [⟨5, -1⟩, ⟨6, 5⟩] 0 = [] ∧
      determineLabelPlotOrder [⟨5, -1⟩, ⟨6, 5⟩] 5 (childrenOf [⟨5, -1⟩, ⟨6, 5⟩] 0)
        = some [] ∧
      (6 : Int) ∉ ([] : List Int) := by decide

/-- C7 (amended): the `"Tracked"` colormap selection is the set of labels
whose lineage parent is not `-1`.  Provided no label is `-1`, this
contains every `parent == 0` root and all their descendants computed by
the tree-layout expansion from those roots — but it can be strictly
larger (see the counterexample), so the claimed equality fails. -/
theorem C7_tracked_selection_superset (table : List LinRow) (fuel : Nat) (out : List Int)
    (h0 : ∀ r ∈ table, r.label ≠ -1)
    (hrun : determineLabelPlotOrder table fuel (childrenOf table 0) = some out) :
    ∀ l ∈ out, l ∈ cmapTrackedSelection table := by
  have hroot : ∀ l ∈ childrenOf table 0, ∃ r ∈ table, r.label = l ∧ r.parent ≠ -1 := by
    intro l hl
    obtain ⟨r, hr, hlab, hpar⟩ := childrenOf_mem hl
    exact ⟨r, hr, hlab, by rw [hpar]; decide⟩
  have hfr : ∀ l ∈ childrenOf table 0, l ≠ -1 := by
    intro l hl
    obtain ⟨r, hr, hlab, _⟩ := childrenOf_mem hl
    exact hlab ▸ h0 r hr
  intro l hl
  obtain ⟨r, hr, hlab, hpar⟩ :=
    plotOrder_mem_sound table h0 fuel (childrenOf table 0) (childrenOf table 0) out
      hroot hfr hrun l hl
  simp only [cmapTrackedSelection, List.mem_map, List.mem_filter]
  exact ⟨r, ⟨hr, bne_iff_ne.mpr hpar⟩, hlab⟩

/-- C7 (witness): on the table `{(5,0),(6,5)}` the layout from the roots is
`[6,5]`, and its member 6 is indeed in the colormap selection. -/
theorem C7_witness :
    (6 : Int) ∈ cmapTrackedSelection [⟨5, 0⟩, ⟨6, 5⟩] :=
  C7_tracked_selection_superset [⟨5, 0⟩, ⟨6, 5⟩] 3 [6, 5] (by decide) (by decide) 6 (by decide)

/-! ## C8: termination of the tree-layout expansion -/

theorem plotOrder_terminates_aux (table : List LinRow) (rank : Int → Nat) (N : Nat)
    (h0 : ∀ r ∈ table, 1 < r.label)
    (h1 : ∀ r ∈ table, 0 < r.parent → rank r.parent < rank r.label)
    (h2 : ∀ r ∈ table, rank r.label < N) :
    ∀ (f k : Nat) (order fr : List Int),
      (∀ l ∈ fr, 0 < l ∧ k ≤ rank l ∧ rank l < N) → N ≤ k + f →
      (plotOrderFuel table (f + 1) order fr).isSome = true := by
  intro f
  induction f with
  | zero =>
    intro k order fr hfr hN
    cases fr with
    | nil => rfl
    | cons l ls =>
      obtain ⟨_, hk, hlt⟩ := hfr l (List.mem_cons_self l ls)
      omega
  | succ n ih =>
    intro k order fr hfr hN
    cases fr with
    | nil => rfl
    | cons l ls =>
      have hstep : plotOrderFuel table (n + 1 + 1) order (l :: ls)
          = plotOrderFuel table (n + 1) (expandRound table order (l :: ls)).1
              (expandRound table order (l :: ls)).2 := rfl
      rw [hstep]
      refine ih (k + 1) _ _ ?_ (by omega)
      intro c hc
      rcases (mem_expandRound_snd table c (l :: ls) order).mp hc with ⟨x, hx, hcc⟩
      obtain ⟨r, hr, hlab, hpar⟩ := childrenOf_mem hcc
      obtain ⟨hxpos, hxk, _⟩ := hfr x hx
      subst hlab
      subst hpar
      have hedge : rank r.parent < rank r.label := h1 r hr hxpos
      have hlab2 : 1 < r.label := h0 r hr
      have hlt2 : rank r.label < N := h2 r hr
      exact ⟨by omega, by omega, hlt2⟩

/-- C8: the tree-layout expansion terminates on acyclic tables and loops
forever on cyclic ones.  Acyclicity is witnessed, as is standard for a
finite relation, by a rank function strictly decreasing from child to
parent along every edge with positive parent; labels are `> 1` as the
data model requires, and ranks are below `N`.  Then the expansion from any
frontier of positive labels of rank `< N` (each label entering the
frontier in at most one round) finishes within `N + 1` rounds.
Conversely, on the cyclic table `{(2,3),(3,2)}` — two labels that are each
other's parent — the expansion never finishes, whatever the fuel. -/
theorem C8_layout_termination (table : List LinRow) (rank : Int → Nat) (N : Nat)
    (start : List Int)
    (h0 : ∀ r ∈ table, 1 < r.label)
    (h1 : ∀ r ∈ table, 0 < r.parent → rank r.parent < rank r.label)
    (h2 : ∀ r ∈ table, rank r.label < N)
    (h3 : ∀ l ∈ start, 0 < l ∧ rank l < N) :
    (determineLabelPlotOrder table (N + 1) start).isSome = true ∧
    ∀ fuel, determineLabelPlotOrder [⟨2, 3⟩, ⟨3, 2⟩] fuel [2] = none := by
  constructor
  · exact plotOrder_terminates_aux table rank N h0 h1 h2 N 0 start start
      (fun l hl => ⟨(h3 l hl).1, Nat.zero_le _, (h3 l hl).2⟩) (by omega)
  · have key : ∀ (fuel : Nat) (order fr : List Int), fr = [2] ∨ fr = [3] →
        plotOrderFuel [⟨2, 3⟩, ⟨3, 2⟩] fuel order fr = none := by
      intro fuel
      induction fuel with
      | zero => intro order fr _; rfl
      | succ n ih =>
        intro order fr h
        rcases h with h | h <;> subst h
        · exact ih _ _ (Or.inr rfl)
        · exact ih _ _ (Or.inl rfl)
    intro fuel
    exact key fuel [2] [2] (Or.inl rfl)

/-- C8 (witness): the termination half applied to the concrete acyclic
table `{(5,0),(6,5),(7,5)}` with an explicit rank function. -/
theorem C8_witness :
    (determineLabelPlotOrder [⟨5, 0⟩, ⟨6, 5⟩, ⟨7, 5⟩] 4 [5]).isSome = true :=
  (C8_layout_termination [⟨5, 0⟩, ⟨6, 5⟩, ⟨7, 5⟩]
    (fun l => if l = 5 then 1 else if l = 6 ∨ l = 7 then 2 else 0) 3 [5]
    (by decide) (by decide) (by decide) (by decide)).1

/-! ## C5: the swap round-trip -/

theorem find?_eq_of_nodup (lin : List LinRow) (hnd : (lin.map LinRow.label).Nodup)
    {lr : LinRow} (hmem : lr ∈ lin) :
    lin.find? (fun x => x.label == lr.label) = some lr := by
  induction lin with
  | nil => cases hmem
  | cons t ts ih =>
    rcases List.mem_cons.mp hmem with h | h
    · subst h
      simp [List.find?]
    · have hne : (t.label == lr.label) = false := by
        refine beq_eq_false_iff_ne.mpr (fun he => ?_)
        exact (List.nodup_cons.mp hnd).1 (he ▸ List.mem_map.mpr ⟨lr, h, rfl⟩)
      simpa [List.find?, hne] using ih (List.nodup_cons.mp hnd).2 h

theorem firstParent_eq (lin : List LinRow) (hnd : (lin.map LinRow.label).Nodup)
    {lr : LinRow} (hmem : lr ∈ lin) : firstParent lin lr.label = lr.parent := by
  rw [firstParent, find?_eq_of_nodup lin hnd hmem]
  rfl

theorem rowFix_id_of_matched (lin : List LinRow) (hnd : (lin.map LinRow.label).Nodup)
    (r : AnnRow) {lr : LinRow} (hmem : lr ∈ lin) (hl : lr.label = r.label)
    (hp : r.parent = some lr.parent) : rowFix lin r = r := by
  have hfind : lin.find? (fun x => x.label == r.label) = some lr := by
    rw [← hl]
    exact find?_eq_of_nodup lin hnd hmem
  rw [rowFix, hfind]
  show (⟨r.time_point, r.label, some lr.parent⟩ : AnnRow) = r
  rw [← hp]

theorem dirtyFix_id_of_consistent (lin : List LinRow) (ann : List AnnRow)
    (hnd : (lin.map LinRow.label).Nodup)
    (hcons : ∀ r ∈ ann, ∃ lr ∈ lin, lr.label = r.label ∧ r.parent = some lr.parent) :
    dirtyFix lin ann = ann := by
  rw [dirtyFix_eq_map lin hnd]
  have h : ann.map (rowFix lin) = ann.map id :=
    List.map_congr_left (fun r hr => by
      obtain ⟨lr, hmem, hl, hp⟩ := hcons r hr
      exact rowFix_id_of_matched lin hnd r hmem hl hp)
  simpa using h

theorem rowSwap_label (src tgt srcP tgtP : Int) (r : AnnRow) :
    (rowSwap src tgt srcP tgtP r).label = swapVal tgt src r.label := by
  by_cases h1 : r.label = tgt
  · simp [rowSwap, swapVal, h1]
  · by_cases h2 : r.label = src
    · by_cases h3 : src = tgt
      · exact absurd (h2.trans h3) h1
      · simp [rowSwap, swapVal, h1, h2, h3]
    · simp [rowSwap, swapVal, h1, h2]

theorem swapVal_involutive (src tgt v : Int) : swapVal src tgt (swapVal src tgt v) = v := by
  unfold swapVal
  split_ifs <;> omega

theorem map_swap_swap (src tgt : Int) (frame : List Int) :
    (frame.map (swapVal src tgt)).map (swapVal src tgt) = frame := by
  rw [List.map_map,
    show swapVal src tgt ∘ swapVal src tgt = id from funext (swapVal_involutive src tgt),
    List.map_id]

theorem volume_swap_swap (src tgt : Int) (vol : List (List Int)) :
    (vol.map (List.map (swapVal src tgt))).map (List.map (swapVal src tgt)) = vol := by
  rw [List.map_map,
    show List.map (swapVal src tgt) ∘ List.map (swapVal src tgt) = id from
      funext (fun frame => map_swap_swap src tgt frame),
    List.map_id]

theorem rowSwap_involutive_of_consistent (lin : List LinRow)
    (hnd : (lin.map LinRow.label).Nodup) (a b : Int) (r : AnnRow)
    (lr : LinRow) (hmem : lr ∈ lin) (hl : lr.label = r.label)
    (hp : r.parent = some lr.parent) :
    rowSwap a b (firstParent lin a) (firstParent lin b)
      (rowSwap a b (firstParent lin a) (firstParent lin b) r) = r := by
  obtain ⟨t, l, p⟩ := r
  dsimp only at hl hp
  by_cases h1 : l = b
  · have hfb : firstParent lin b = lr.parent := by
      rw [← h1, ← hl]
      exact firstParent_eq lin hnd hmem
    by_cases hab : a = b
    · have hfa : firstParent lin a = lr.parent := by rw [hab, hfb]
      simp [rowSwap, h1, hab, hfa, hfb, hp]
    · simp [rowSwap, h1, hab, hfb, hp]
  · by_cases h2 : l = a
    · have hfa : firstParent lin a = lr.parent := by
        rw [← h2, ← hl]
        exact firstParent_eq lin hnd hmem
      by_cases hab : a = b
      · exact absurd (h2.trans hab) h1
      · simp [rowSwap, h1, h2, hab, hfa, hp]
    · simp [rowSwap, h1, h2]

theorem rowSwap_consistent (lin : List LinRow) (hnd : (lin.map LinRow.label).Nodup)
    (a b : Int)
    (ha : a ∈ lin.map LinRow.label) (hb : b ∈ lin.map LinRow.label)
    (r : AnnRow) (lr : LinRow) (hmem : lr ∈ lin) (hl : lr.label = r.label)
    (hp : r.parent = some lr.parent) :
    ∃ lr' ∈ lin,
      lr'.label = (rowSwap a b (firstParent lin a) (firstParent lin b) r).label ∧
      (rowSwap a b (firstParent lin a) (firstParent lin b) r).parent = some lr'.parent := by
  by_cases h1 : r.label = b
  · obtain ⟨lra, hlra, hlaba⟩ := List.mem_map.mp ha
    have hfa : firstParent lin a = lra.parent := by
      rw [← hlaba]
      exact firstParent_eq lin hnd hlra
    exact ⟨lra, hlra, by simp [rowSwap, h1, hlaba], by simp [rowSwap, h1, hfa]⟩
  · by_cases h2 : r.label = a
    · obtain ⟨lrb, hlrb, hlabb⟩ := List.mem_map.mp hb
      have hab : a ≠ b := fun he => h1 (h2.trans he)
      have hfb : firstParent lin b = lrb.parent := by
        rw [← hlabb]
        exact firstParent_eq lin hnd hlrb
      exact ⟨lrb, hlrb, by simp [rowSwap, h1, h2, hab, hlabb],
        by simp [rowSwap, h1, h2, hab, hfb]⟩
    · exact ⟨lr, hmem, by simp [rowSwap, h1, h2, hl], by simp [rowSwap, h1, h2, hp]⟩

theorem swap_labels_mem (lin : List LinRow) (ann : List AnnRow) (a b : Int)
    (hcov : ∀ lr ∈ lin, ∃ r ∈ ann, r.label = lr.label)
    (ha : a ∈ lin.map LinRow.label) (hb : b ∈ lin.map LinRow.label)
    (pa pb : Int) :
    ∀ lr ∈ lin, lr.label ∈ (ann.map (rowSwap a b pa pb)).map AnnRow.label := by
  intro lr hlr
  by_cases hla : lr.label = a
  · obtain ⟨lrb, hlrb, hlabb⟩ := List.mem_map.mp hb
    obtain ⟨r, hr, hrl⟩ := hcov lrb hlrb
    refine List.mem_map.mpr ⟨rowSwap a b pa pb r, List.mem_map_of_mem _ hr, ?_⟩
    rw [rowSwap_label, hrl, hlabb, hla]
    simp [swapVal]
  · by_cases hlb : lr.label = b
    · obtain ⟨lra, hlra, hlaba⟩ := List.mem_map.mp ha
      obtain ⟨r, hr, hrl⟩ := hcov lra hlra
      refine List.mem_map.mpr ⟨rowSwap a b pa pb r, List.mem_map_of_mem _ hr, ?_⟩
      rw [rowSwap_label, hrl, hlaba, hlb]
      by_cases hab : a = b
      · simp [swapVal, hab]
      · simp [swapVal, hab]
    · obtain ⟨r, hr, hrl⟩ := hcov lr hlr
      refine List.mem_map.mpr ⟨rowSwap a b pa pb r, List.mem_map_of_mem _ hr, ?_⟩
      rw [rowSwap_label, hrl]
      simp [swapVal, hla, hlb]

/-- C5 (counterexample): with both labels 5 and 6 present in the lineage
table but the annotation table out of sync (label 5 recorded with parent
`-1` instead of the lineage value `0`, label 6 with no annotation row),
swapping 5 and 6 twice does not restore the state: the first swap
dirty-fixes the parent, re-labels the row to 6, and prunes `(5,0)` from
the lineage table, after which the second swap aborts its guard. -/
theorem C5_counterexample :
    ((5 : Int) ∈ ([⟨5, 0⟩, ⟨6, 0⟩] : List LinRow).map LinRow.label ∧
      (6 : Int) ∈ ([⟨5, 0⟩, ⟨6, 0⟩] : List LinRow).map LinRow.label) ∧
    swapLabel (swapLabel ⟨[[5]], [⟨0, 5, some (-1)⟩], [⟨5, 0⟩, ⟨6, 0⟩]⟩ 5 6 true 0) 5 6 true 0
      ≠ ⟨[[5]], [⟨0, 5, some (-1)⟩], [⟨5, 0⟩, ⟨6, 0⟩]⟩ := by decide

/-- C5 (amended): the swap round-trip holds on reconciled states: when the
lineage labels are unique, every annotation row's parent matches the
lineage table, every lineage label still occurs in the annotation data,
and both `a` and `b` are lineage labels, swapping `a` and `b` over all
frames twice restores the volume, the annotation table and the lineage
table exactly.  On non-reconciled states it can fail (see the
counterexample). -/
theorem C5_swap_round_trip (st : TrackerState) (a b : Int) (tstart : Nat)
    (hrec : Reconciled st)
    (ha : a ∈ st.parent_labels.map LinRow.label)
    (hb : b ∈ st.parent_labels.map LinRow.label) :
    swapLabel (swapLabel st a b true tstart) a b true tstart = st := by
  obtain ⟨hnd, hcons, hcov⟩ := hrec
  have hdf1 : dirtyFix st.parent_labels st.label_df = st.label_df :=
    dirtyFix_id_of_consistent _ _ hnd hcons
  have hprune1 : st.parent_labels.filter
      (fun lr => decide (lr.label ∈ ((st.label_df.map (rowSwap a b
          (firstParent st.parent_labels a) (firstParent st.parent_labels b))).map
          AnnRow.label))) = st.parent_labels :=
    List.filter_eq_self.mpr (fun lr h =>
      decide_eq_true (swap_labels_mem st.parent_labels st.label_df a b hcov ha hb _ _ lr h))
  have hswap1 : swapLabel st a b true tstart
      = { volume := st.volume.map (List.map (swapVal a b)),
          label_df := st.label_df.map (rowSwap a b (firstParent st.parent_labels a)
            (firstParent st.parent_labels b)),
          parent_labels := st.parent_labels } := by
    unfold swapLabel
    rw [if_pos ⟨ha, hb⟩]
    show TrackerState.mk (st.volume.map (List.map (swapVal a b)))
        ((dirtyFix st.parent_labels st.label_df).map (rowSwap a b
          (firstParent st.parent_labels a) (firstParent st.parent_labels b)))
        (st.parent_labels.filter (fun lr => decide (lr.label ∈
          ((dirtyFix st.parent_labels st.label_df).map (rowSwap a b
            (firstParent st.parent_labels a) (firstParent st.parent_labels b))).map
            AnnRow.label)))
      = _
    rw [hdf1, hprune1]
  have hcons1 : ∀ r' ∈ st.label_df.map (rowSwap a b (firstParent st.parent_labels a)
      (firstParent st.parent_labels b)),
      ∃ lr ∈ st.parent_labels, lr.label = r'.label ∧ r'.parent = some lr.parent := by
    intro r' hr'
    obtain ⟨r, hr, hrw⟩ := List.mem_map.mp hr'
    obtain ⟨lr, hmem, hl, hp⟩ := hcons r hr
    rw [← hrw]
    exact rowSwap_consistent st.parent_labels hnd a b ha hb r lr hmem hl hp
  have hdf2 : dirtyFix st.parent_labels (st.label_df.map (rowSwap a b
      (firstParent st.parent_labels a) (firstParent st.parent_labels b)))
      = st.label_df.map (rowSwap a b (firstParent st.parent_labels a)
          (firstParent st.parent_labels b)) :=
    dirtyFix_id_of_consistent _ _ hnd hcons1
  have hdf3 : (st.label_df.map (rowSwap a b (firstParent st.parent_labels a)
      (firstParent st.parent_labels b))).map (rowSwap a b (firstParent st.parent_labels a)
      (firstParent st.parent_labels b)) = st.label_df := by
    rw [List.map_map]
    have h : st.label_df.map ((rowSwap a b (firstParent st.parent_labels a)
        (firstParent st.parent_labels b)) ∘ (rowSwap a b (firstParent st.parent_labels a)
        (firstParent st.parent_labels b))) = st.label_df.map id :=
      List.map_congr_left (fun r hr => by
        obtain ⟨lr, hmem, hl, hp⟩ := hcons r hr
        exact rowSwap_involutive_of_consistent st.parent_labels hnd a b r lr hmem hl hp)
    simpa using h
  have hprune2 : st.parent_labels.filter
      (fun lr => decide (lr.label ∈ st.label_df.map AnnRow.label)) = st.parent_labels :=
    List.filter_eq_self.mpr (fun lr h =>
      decide_eq_true (let ⟨r, hr, hrl⟩ := hcov lr h; List.mem_map.mpr ⟨r, hr, hrl⟩))
  rw [hswap1]
  unfold swapLabel
  rw [if_pos ⟨ha, hb⟩]
  show TrackerState.mk
      ((st.volume.map (List.map (swapVal a b))).map (List.map (swapVal a b)))
      ((dirtyFix st.parent_labels (st.label_df.map (rowSwap a b
          (firstParent st.parent_labels a) (firstParent st.parent_labels b)))).map
        (rowSwap a b (firstParent st.parent_labels a) (firstParent st.parent_labels b)))
      (st.parent_labels.filter (fun lr => decide (lr.label ∈
        ((dirtyFix st.parent_labels (st.label_df.map (rowSwap a b
            (firstParent st.parent_labels a) (firstParent st.parent_labels b)))).map
          (rowSwap a b (firstParent st.parent_labels a)
            (firstParent st.parent_labels b))).map AnnRow.label)))
    = st
  rw [hdf2, hdf3, volume_swap_swap, hprune2]

/-- C5 (witness): the amended round trip at a concrete reconciled
two-label state. -/
theorem C5_witness :
    swapLabel (swapLabel ⟨[[5, 6]], [⟨0, 5, some 0⟩, ⟨0, 6, some 0⟩], [⟨5, 0⟩, ⟨6, 0⟩]⟩
        5 6 true 0) 5 6 true 0
      = ⟨[[5, 6]], [⟨0, 5, some 0⟩, ⟨0, 6, some 0⟩], [⟨5, 0⟩, ⟨6, 0⟩]⟩ :=
  C5_swap_round_trip ⟨[[5, 6]], [⟨0, 5, some 0⟩, ⟨0, 6, some 0⟩], [⟨5, 0⟩, ⟨6, 0⟩]⟩
    5 6 0 (by decide) (by decide) (by decide)

end ManualTracking
